import Mathlib

/-!
Verification of the discriminator training loop (`discriminator/train.py`)
of the CS224N QA-with-domain-discriminator repository.

The development shallowly embeds the numeric core of `Trainer`:
the length-band mask built in `Trainer.__init__` (lines 166-169), the
expected-length penalty (lines 349-359), the predicted-length loss
reweighting (lines 302-315), the discriminator KL loss
(`compute_discriminator_loss`, lines 234-254), the composite loss
(lines 326-332, 361-372), the per-batch optimizer-step schedule
(lines 374-387), and the gold-position clamping with ignore-index
cross entropy (lines 317-330).

Machine floats are modelled by exact reals (ℚ where the source only
adds/compares, ℝ where `exp`/`log`/`softmax` appear).
-/

namespace QADisc

/-! ### LengthBandMask (train.py lines 166-169, test/test.py lines 5-9)

`self.length_mask = torch.ones(384, 384)` followed by
`for i in range(384): self.length_mask[i][i:i+self.length_k+1] = 0`
and `self.length_mask = torch.t(self.length_mask)`.

Matrices are embedded as functions `ℕ → ℕ → ℚ`; the slice assignment
`m[i][i:i+k+1] = 0` is `zeroSlice m i i (i+k+1)`. -/

/-- One slice assignment `m[i][lo:hi] = 0` on a row-indexed matrix. -/
def zeroSlice (m : ℕ → ℕ → ℚ) (i lo hi : ℕ) : ℕ → ℕ → ℚ :=
  fun r c => if r = i ∧ lo ≤ c ∧ c < hi then 0 else m r c

/-- The loop `for i in range(L): m[i][i:i+k+1] = 0` starting from all ones. -/
def bandLoop (k L : ℕ) : ℕ → ℕ → ℚ :=
  (List.range L).foldl (fun m i => zeroSlice m i i (i + k + 1)) (fun _ _ => 1)

/-- `Trainer.length_mask`: the banded matrix, transposed (`torch.t`). -/
def length_mask (L k : ℕ) : ℕ → ℕ → ℚ :=
  fun i j => bandLoop k L j i

lemma bandLoop_apply (k L r c : ℕ) :
    bandLoop k L r c = if r < L ∧ r ≤ c ∧ c ≤ r + k then 0 else 1 := by
  induction L with
  | zero => simp [bandLoop]
  | succ n ih =>
      have hstep : bandLoop k (n + 1)
          = zeroSlice (bandLoop k n) n n (n + k + 1) := by
        unfold bandLoop
        rw [List.range_succ, List.foldl_append, List.foldl_cons, List.foldl_nil]
      rw [hstep]
      show (if r = n ∧ n ≤ c ∧ c < n + k + 1 then (0 : ℚ) else bandLoop k n r c)
          = if r < n + 1 ∧ r ≤ c ∧ c ≤ r + k then 0 else 1
      rw [ih]
      split_ifs <;> first | rfl | omega

lemma length_mask_apply (L k i j : ℕ) :
    length_mask L k i j = if j < L ∧ j ≤ i ∧ i ≤ j + k then 0 else 1 := by
  rw [length_mask, bandLoop_apply]

/-! ### ExpectedLengthPenalty (train.py lines 349-359, test/test.py lines 17-27)

Per batch element `b`, the source softmaxes `start_logits` and
`end_logits` along positions, forms the outer product
`torch.matmul(start_sm.unsqueeze(2), end_sm.unsqueeze(1))`
(followed by `torch.transpose(·, dim0=1, dim1=1)`, which swaps a
dimension with itself and is the identity), multiplies by
`self.length_mask`, takes the diagonal and sums, dividing by the
batch size. -/

/-- Softmax along positions `0..L-1` (`nn.Softmax(dim=1)` rowwise). -/
noncomputable def softmaxRow (L : ℕ) (s : ℕ → ℝ) : ℕ → ℝ :=
  fun c => Real.exp (s c) / ∑ i ∈ Finset.range L, Real.exp (s i)

/-- `torch.matmul(p.unsqueeze(2), q.unsqueeze(1))`: the outer product. -/
def outerProd (p q : ℕ → ℝ) : ℕ → ℕ → ℝ :=
  fun i j => p i * q j

/-- `torch.transpose(A, dim0=1, dim1=1)` swaps dim 1 with itself: identity. -/
def transposeDim1Dim1 (A : ℕ → ℕ → ℝ) : ℕ → ℕ → ℝ := A

/-- `torch.matmul` of two L×L matrices. -/
def matmulN (L : ℕ) (A B : ℕ → ℕ → ℝ) : ℕ → ℕ → ℝ :=
  fun i j => ∑ c ∈ Finset.range L, A i c * B c j

/-- `torch.sum(torch.diagonal(A))`: the trace of an L×L matrix. -/
def traceN (L : ℕ) (A : ℕ → ℕ → ℝ) : ℝ :=
  ∑ i ∈ Finset.range L, A i i

/-- One example's contribution to the length penalty, with an arbitrary
mask matrix `M` in place of `self.length_mask`. -/
def exampleTraceWithMask (L : ℕ) (p q : ℕ → ℝ) (M : ℕ → ℕ → ℝ) : ℝ :=
  traceN L (matmulN L (transposeDim1Dim1 (outerProd p q)) M)

/-- The batch-averaged masked trace, arbitrary mask matrix. -/
noncomputable def batchTraceLossWithMask (L B : ℕ) (ps qs : ℕ → ℕ → ℝ)
    (M : ℕ → ℕ → ℝ) : ℝ :=
  (∑ b ∈ Finset.range B, exampleTraceWithMask L (ps b) (qs b) M) / B

/-- One example's masked trace with the trainer's `length_mask`. -/
def exampleLengthTrace (L k : ℕ) (p q : ℕ → ℝ) : ℝ :=
  exampleTraceWithMask L p q (fun i j => (length_mask L k i j : ℝ))

/-- `length_loss` of train.py lines 349-359: softmax both logit rows,
outer-product, multiply by `length_mask`, trace, sum over the batch,
divide by `batch_size`. -/
noncomputable def batchLengthLoss (L k B : ℕ) (sLogits eLogits : ℕ → ℕ → ℝ) : ℝ :=
  (∑ b ∈ Finset.range B,
      exampleLengthTrace L k (softmaxRow L (sLogits b)) (softmaxRow L (eLogits b))) / B

lemma exampleTraceWithMask_eq (L : ℕ) (p q : ℕ → ℝ) (M : ℕ → ℕ → ℝ) :
    exampleTraceWithMask L p q M
      = ∑ a ∈ Finset.range L, ∑ c ∈ Finset.range L, p a * q c * M c a := rfl

lemma exampleLengthTrace_eq (L k : ℕ) (p q : ℕ → ℝ) :
    exampleLengthTrace L k p q
      = ∑ a ∈ Finset.range L, ∑ c ∈ Finset.range L,
          if a ≤ c ∧ c ≤ a + k then 0 else p a * q c := by
  rw [exampleLengthTrace, exampleTraceWithMask_eq]
  refine Finset.sum_congr rfl fun a ha => Finset.sum_congr rfl fun c hc => ?_
  rw [length_mask_apply]
  have ha' : a < L := Finset.mem_range.mp ha
  by_cases h : a ≤ c ∧ c ≤ a + k
  · rw [if_pos ⟨ha', h.1, h.2⟩, if_pos h]
    push_cast
    ring
  · have : ¬(a < L ∧ a ≤ c ∧ c ≤ a + k) := by tauto
    rw [if_neg this, if_neg h]
    push_cast
    ring

/-! ### PredictedLengthReweighter (train.py lines 302-315)

`pred_length = argmax(end_logits) - argmax(start_logits) + 1` and
`gold_length = end_positions - start_positions + 1` are integers; the
weight is computed elementwise as
`weight = exp(1 - max(gold_length,1) / max(pred_length,1))`,
then `weight = where(pred_length > gold_length, weight, 1)`,
then `weight = where(pred_length > 0, weight, 2)`. -/

/-- The per-example weight of train.py lines 305-315, as a function of
the integer predicted and gold span lengths. -/
noncomputable def predLengthWeight (pred_length gold_length : ℤ) : ℝ :=
  let maxed_pred_length := max pred_length 1
  let maxed_gold_length := max gold_length 1
  let base := Real.exp (1 - (maxed_gold_length : ℝ) / (maxed_pred_length : ℝ))
  let w1 := if pred_length > gold_length then base else 1
  if pred_length > 0 then w1 else 2

/-- Modelled from the spec's words (§4.3): base weight
`exp(1 - clamped_gold / clamped_pred)`, replaced by 1 when
`predicted_length ≤ clamped_gold`, replaced by 2 when
`predicted_length ≤ 0`, the last rule taking precedence. -/
noncomputable def specLengthWeight (pred_length gold_length : ℤ) : ℝ :=
  if pred_length ≤ 0 then 2
  else if pred_length ≤ max gold_length 1 then 1
  else Real.exp (1 - (max gold_length 1 : ℝ) / (max pred_length 1 : ℝ))

lemma predLengthWeight_eq_specLengthWeight (p g : ℤ) :
    predLengthWeight p g = specLengthWeight p g := by
  simp only [predLengthWeight, specLengthWeight]
  rcases le_or_lt p 0 with hp0 | hp0
  · rw [if_neg (not_lt.mpr hp0), if_pos hp0]
  · rw [if_pos hp0, if_neg (not_le.mpr hp0)]
    rcases le_or_lt p g with hpg | hpg
    · rw [if_neg (not_lt.mpr hpg), if_pos (le_trans hpg (le_max_left g 1))]
    · rw [if_pos hpg]
      rcases le_or_lt p (max g 1) with hmax | hmax
      · have hgmax : max g 1 = 1 := by
          rcases le_total g 1 with h | h
          · exact max_eq_right h
          · rw [max_eq_left h] at hmax
            omega
        have hp1 : p = 1 := by
          rw [hgmax] at hmax
          omega
        rw [if_pos hmax, hgmax, hp1]
        norm_num
      · rw [if_neg (not_le.mpr hmax)]
        push_cast
        rfl

/-! ### DomainAdversaryLoss, encoder term (train.py lines 234-254)

`compute_discriminator_loss` feeds the (not detached) representation
through the discriminator, builds the uniform target
`ones_like(log_prob) * (1 / num_classes)`, keeps only rows with
`data_set_ids < 3`, returns 0 if none remain, and otherwise applies
`nn.KLDivLoss(reduction="batchmean")` to the kept log-probability rows.

The discriminator itself is opaque; a batch is embedded as a list of
pairs of the example's `data_set_id` and the discriminator's
log-probability row for that example. -/

/-- Pointwise `nn.KLDivLoss` term `target * (log(target) - input)`,
with `input` already in log space. -/
noncomputable def klPointwise (target input : ℝ) : ℝ :=
  target * (Real.log target - input)

/-- The uniform target value `1 / self.discriminator.num_classes`. -/
noncomputable def uniformTarget (C : ℕ) : ℝ := 1 / C

/-- Sum of the pointwise KL terms of one log-probability row against the
uniform target over `C` classes. -/
noncomputable def rowKL (C : ℕ) (r : ℕ → ℝ) : ℝ :=
  ∑ c ∈ Finset.range C, klPointwise (uniformTarget C) (r c)

/-- `nn.KLDivLoss(reduction="batchmean")` on matching shapes: sum of all
pointwise terms divided by the number of input rows. -/
noncomputable def klBatchmean (C : ℕ) (rows : List (ℕ → ℝ)) : ℝ :=
  (rows.map (rowKL C)).sum / rows.length

/-- `kl_criterion(log_prob, targets)` where `targets` is a `tRows`×C
tensor of identical uniform rows and `log_prob` has `rows.length` rows:
the elementwise KL term broadcasts the two shapes, which succeeds iff
the row counts match or one of them is 1, and raises a shape-mismatch
`RuntimeError` (`none`) otherwise; `reduction="batchmean"` divides the
summed pointwise tensor by the input's row count `rows.length`. -/
noncomputable def klDivBatchmeanUniform (C : ℕ) (rows : List (ℕ → ℝ))
    (tRows : ℕ) : Option ℝ :=
  if rows.length = tRows then some (klBatchmean C rows)
  else if rows.length = 1 then
    some (((tRows : ℝ) * (rows.map (rowKL C)).sum) / rows.length)
  else if tRows = 1 then some (klBatchmean C rows)
  else none

/-- `Trainer.compute_discriminator_loss` (train.py lines 242-254):
the uniform target tensor is built from the *unfiltered* `log_prob`
(line 247, one row per batch example), then `log_prob` is restricted to
rows with `data_set_ids < 3` (line 250); 0 is returned when none remain,
and otherwise `nn.KLDivLoss(reduction="batchmean")` pairs the kept rows
with the full-batch-sized target, broadcasting (or raising) per
`klDivBatchmeanUniform`. Only the target's row count matters since all
its rows are the same uniform distribution. -/
noncomputable def compute_discriminator_loss (C : ℕ)
    (batch : List (ℤ × (ℕ → ℝ))) : Option ℝ :=
  let log_prob := (batch.filter (fun x => x.1 < 3)).map Prod.snd
  if log_prob.length = 0 then some 0
  else klDivBatchmeanUniform C log_prob batch.length

/-- Modelled from the spec's words (§4.4): the encoder-adversarial loss
is the KL divergence between the predicted distribution and the uniform
distribution over domain classes, batch-averaged only over the
in-domain-restricted log-probabilities, and exactly 0 when no in-domain
example exists. -/
noncomputable def specAdversarialLoss (C : ℕ)
    (batch : List (ℤ × (ℕ → ℝ))) : ℝ :=
  let log_prob := (batch.filter (fun x => x.1 < 3)).map Prod.snd
  if log_prob.length = 0 then 0 else klBatchmean C log_prob

lemma compute_discriminator_loss_homogeneous (C : ℕ)
    (batch : List (ℤ × (ℕ → ℝ)))
    (hdom : (batch.filter (fun x => x.1 < 3)).length = 0
          ∨ (batch.filter (fun x => x.1 < 3)).length = batch.length) :
    compute_discriminator_loss C batch = some (specAdversarialLoss C batch) := by
  simp only [compute_discriminator_loss, specAdversarialLoss]
  by_cases h0 : ((batch.filter (fun x => x.1 < 3)).map Prod.snd).length = 0
  · rw [if_pos h0, if_pos h0]
  · rw [if_neg h0, if_neg h0]
    have hn : (batch.filter (fun x => x.1 < 3)).length = batch.length := by
      rcases hdom with h | h
      · exact absurd (by rw [List.length_map]; exact h) h0
      · exact h
    rw [klDivBatchmeanUniform, if_pos (by rw [List.length_map]; exact hn)]

lemma klDivBatchmeanUniform_eq_zero (C : ℕ) (rows : List (ℕ → ℝ))
    (tRows : ℕ) (hrows : rows.length ≠ 0) (htR : rows.length ≤ tRows)
    (h : klDivBatchmeanUniform C rows tRows = some 0) :
    (rows.map (rowKL C)).sum = 0 := by
  have hlen0 : ((rows.length : ℕ) : ℝ) ≠ 0 := by exact_mod_cast hrows
  rw [klDivBatchmeanUniform] at h
  by_cases h1 : rows.length = tRows
  · rw [if_pos h1, klBatchmean] at h
    rcases div_eq_zero_iff.mp (Option.some.inj h) with hS | hL
    · exact hS
    · exact absurd hL hlen0
  · rw [if_neg h1] at h
    by_cases h2 : rows.length = 1
    · rw [if_pos h2] at h
      have htR0 : ((tRows : ℕ) : ℝ) ≠ 0 := by
        have : tRows ≠ 0 := by omega
        exact_mod_cast this
      rcases div_eq_zero_iff.mp (Option.some.inj h) with hS | hL
      · rcases mul_eq_zero.mp hS with hT | hS'
        · exact absurd hT htR0
        · exact hS'
      · exact absurd hL hlen0
    · rw [if_neg h2] at h
      by_cases h3 : tRows = 1
      · rw [if_pos h3, klBatchmean] at h
        rcases div_eq_zero_iff.mp (Option.some.inj h) with hS | hL
        · exact hS
        · exact absurd hL hlen0
      · rw [if_neg h3] at h
        exact Option.noConfusion h

lemma klPointwise_uniform_ge (C : ℕ) (hC : 0 < C) (y : ℝ) :
    uniformTarget C - Real.exp y ≤ klPointwise (uniformTarget C) y := by
  have hCpos : (0 : ℝ) < C := by exact_mod_cast hC
  have hx : (0 : ℝ) < (C : ℝ) * Real.exp y := mul_pos hCpos (Real.exp_pos y)
  have hlog : Real.log ((C : ℝ) * Real.exp y) ≤ (C : ℝ) * Real.exp y - 1 :=
    Real.log_le_sub_one_of_pos hx
  have hlogeq : Real.log ((C : ℝ) * Real.exp y) = Real.log C + y := by
    rw [Real.log_mul (ne_of_gt hCpos) (Real.exp_ne_zero y), Real.log_exp]
  have key : 1 - (C : ℝ) * Real.exp y ≤ -Real.log C - y := by
    rw [hlogeq] at hlog
    linarith
  have hmul := mul_le_mul_of_nonneg_left key
    (le_of_lt (one_div_pos.mpr hCpos))
  have hL : 1 / (C : ℝ) * (1 - (C : ℝ) * Real.exp y)
      = 1 / (C : ℝ) - Real.exp y := by
    field_simp
  have hR : 1 / (C : ℝ) * (-Real.log C - y)
      = 1 / (C : ℝ) * (Real.log (1 / (C : ℝ)) - y) := by
    rw [one_div, Real.log_inv]
  rw [hL, hR] at hmul
  exact hmul

lemma klPointwise_uniform_eq_imp (C : ℕ) (hC : 0 < C) (y : ℝ)
    (h : klPointwise (uniformTarget C) y = uniformTarget C - Real.exp y) :
    y = Real.log (uniformTarget C) := by
  have hCpos : (0 : ℝ) < C := by exact_mod_cast hC
  have hx : (0 : ℝ) < (C : ℝ) * Real.exp y := mul_pos hCpos (Real.exp_pos y)
  by_cases hone : (C : ℝ) * Real.exp y = 1
  · have hexp : Real.exp y = 1 / (C : ℝ) := by
      field_simp at hone ⊢
      linarith
    have := congrArg Real.log hexp
    rw [Real.log_exp] at this
    rw [this, uniformTarget]
  · exfalso
    have hlog : Real.log ((C : ℝ) * Real.exp y) < (C : ℝ) * Real.exp y - 1 :=
      Real.log_lt_sub_one_of_pos hx hone
    have hlogeq : Real.log ((C : ℝ) * Real.exp y) = Real.log C + y := by
      rw [Real.log_mul (ne_of_gt hCpos) (Real.exp_ne_zero y), Real.log_exp]
    have key : 1 - (C : ℝ) * Real.exp y < -Real.log C - y := by
      rw [hlogeq] at hlog
      linarith
    have hmul := mul_lt_mul_of_pos_left key (one_div_pos.mpr hCpos)
    have hL : 1 / (C : ℝ) * (1 - (C : ℝ) * Real.exp y)
        = 1 / (C : ℝ) - Real.exp y := by
      field_simp
    have hR : 1 / (C : ℝ) * (-Real.log C - y)
        = 1 / (C : ℝ) * (Real.log (1 / (C : ℝ)) - y) := by
      rw [one_div, Real.log_inv]
    rw [hL, hR] at hmul
    rw [klPointwise, uniformTarget] at h
    rw [h] at hmul
    simp [uniformTarget] at hmul

lemma rowKL_nonneg (C : ℕ) (hC : 0 < C) (r : ℕ → ℝ)
    (hsum : ∑ c ∈ Finset.range C, Real.exp (r c) = 1) :
    0 ≤ rowKL C r := by
  have hCpos : (0 : ℝ) < C := by exact_mod_cast hC
  have hbound : ∑ c ∈ Finset.range C, (uniformTarget C - Real.exp (r c))
      ≤ rowKL C r :=
    Finset.sum_le_sum fun c _ => klPointwise_uniform_ge C hC (r c)
  have hval : ∑ c ∈ Finset.range C, (uniformTarget C - Real.exp (r c)) = 0 := by
    rw [Finset.sum_sub_distrib, hsum, Finset.sum_const, Finset.card_range,
        uniformTarget]
    field_simp
  linarith

lemma rowKL_eq_zero_imp (C : ℕ) (r : ℕ → ℝ)
    (hsum : ∑ c ∈ Finset.range C, Real.exp (r c) = 1)
    (hz : rowKL C r = 0) :
    ∀ c ∈ Finset.range C, r c = Real.log (uniformTarget C) := by
  have hC : 0 < C := by
    rcases Nat.eq_zero_or_pos C with h | h
    · subst h
      simp at hsum
    · exact h
  have hval : ∑ c ∈ Finset.range C, (uniformTarget C - Real.exp (r c)) = 0 := by
    rw [Finset.sum_sub_distrib, hsum, Finset.sum_const, Finset.card_range,
        uniformTarget]
    field_simp
  have hdiff : ∑ c ∈ Finset.range C,
      (klPointwise (uniformTarget C) (r c) - (uniformTarget C - Real.exp (r c))) = 0 := by
    rw [Finset.sum_sub_distrib, hval]
    rw [rowKL] at hz
    rw [hz]
    ring
  have hnn : ∀ c ∈ Finset.range C,
      0 ≤ klPointwise (uniformTarget C) (r c) - (uniformTarget C - Real.exp (r c)) :=
    fun c _ => sub_nonneg.mpr (klPointwise_uniform_ge C hC (r c))
  have hall := (Finset.sum_eq_zero_iff_of_nonneg hnn).mp hdiff
  intro c hc
  have hc0 := hall c hc
  exact klPointwise_uniform_eq_imp C hC (r c) (by linarith [sub_eq_zero.mp hc0])

lemma list_sum_zero_of_nonneg {l : List ℝ} (h : ∀ x ∈ l, 0 ≤ x)
    (hz : l.sum = 0) : ∀ x ∈ l, x = 0 := by
  induction l with
  | nil => simp
  | cons a t ih =>
      simp only [List.sum_cons] at hz
      have ha : 0 ≤ a := h a (by simp)
      have ht : 0 ≤ t.sum := List.sum_nonneg fun x hx => h x (by simp [hx])
      have ha0 : a = 0 := by linarith
      have hts : t.sum = 0 := by linarith
      intro x hx
      rcases List.mem_cons.mp hx with rfl | hx'
      · exact ha0
      · exact ih (fun y hy => h y (by simp [hy])) hts x hx'

/-! ### CompositeLossOrchestrator (train.py lines 326-332, 361-372)

With reweighting enabled the span loss is rebuilt elementwise as
`loss = (start_loss + end_loss) / 2 / batch_size`, then `loss *= weight`
and `loss = torch.sum(loss)`; afterwards
`loss += self.length_lambda * length_loss` and
`loss += self.discriminator_lambda * kl_loss`, and this final scalar is
the one passed to `loss.backward()` for the base model (line 375). -/

/-- The reweighted span loss of train.py lines 330-332:
elementwise `(start_loss + end_loss) / 2 / batch_size`, multiplied by
`weight`, then summed over the batch. -/
noncomputable def reweightedSpanLoss (B : ℕ) (start_loss end_loss weight : ℕ → ℝ) : ℝ :=
  ∑ e ∈ Finset.range B, (start_loss e + end_loss e) / 2 / (B : ℝ) * weight e

/-- The total per-batch scalar handed to `loss.backward()` when
reweighting, length loss and the adversarial term are all enabled
(train.py lines 330-332, 362, 370-372); `none` when
`compute_discriminator_loss` raises before `loss.backward()` is
reached. -/
noncomputable def trainBatchLoss (L k C B : ℕ)
    (start_loss end_loss weight : ℕ → ℝ) (sLogits eLogits : ℕ → ℕ → ℝ)
    (dbatch : List (ℤ × (ℕ → ℝ))) (length_lambda discriminator_lambda : ℝ) :
    Option ℝ :=
  (compute_discriminator_loss C dbatch).map fun kl =>
    reweightedSpanLoss B start_loss end_loss weight
      + length_lambda * batchLengthLoss L k B sLogits eLogits
      + discriminator_lambda * kl

lemma reweightedSpanLoss_eq (B : ℕ) (start_loss end_loss weight : ℕ → ℝ) :
    reweightedSpanLoss B start_loss end_loss weight
      = (∑ e ∈ Finset.range B,
          weight e * ((start_loss e + end_loss e) / 2)) / (B : ℝ) := by
  rw [reweightedSpanLoss, Finset.sum_div]
  exact Finset.sum_congr rfl fun e _ => by ring

/-! ### AlternatingOptimizationScheduler (train.py lines 374-387)

The per-batch optimizer activity is embedded as a list of events in
source order: with the adversarial mode enabled, the batch starts with
`qa_optim.zero_grad()` and `dis_optim.zero_grad()` (lines 284-285), then
`loss.backward(); qa_optim.step()` (lines 375-376), then for each of the
`num_adv_steps` iterations `dis_optim.step(); dis_optim.zero_grad();
discriminator_loss.backward(); dis_optim.step()` (lines 378-384).
Without adversarial mode only `loss.backward(); qa_optim.step()`
runs (lines 386-387). -/

/-- Optimizer and gradient events of one training batch. -/
inductive OptimEvent where
  | qaZeroGrad : OptimEvent
  | disZeroGrad : OptimEvent
  | lossBackward : OptimEvent
  | qaStep : OptimEvent
  | disBackward : OptimEvent
  | disStep : OptimEvent
deriving DecidableEq

/-- The body of `for step in range(self.num_adv_steps)`
(train.py lines 378-384), unrolled. -/
def disStepLoop : ℕ → List OptimEvent
  | 0 => []
  | n + 1 =>
      [OptimEvent.disStep, OptimEvent.disZeroGrad,
       OptimEvent.disBackward, OptimEvent.disStep] ++ disStepLoop n

/-- The optimizer events of one training batch (train.py lines 283-387). -/
def batchEvents (adv : Bool) (numAdvSteps : ℕ) : List OptimEvent :=
  [OptimEvent.qaZeroGrad, OptimEvent.disZeroGrad] ++
    (if adv then
      [OptimEvent.lossBackward, OptimEvent.qaStep] ++ disStepLoop numAdvSteps
    else
      [OptimEvent.lossBackward, OptimEvent.qaStep])

lemma disStepLoop_count_disStep (n : ℕ) :
    (disStepLoop n).count OptimEvent.disStep = 2 * n := by
  induction n with
  | zero => rfl
  | succ m ih =>
      rw [disStepLoop, List.count_append, ih]
      have h4 : List.count OptimEvent.disStep
          [OptimEvent.disStep, OptimEvent.disZeroGrad,
           OptimEvent.disBackward, OptimEvent.disStep] = 2 := by decide
      rw [h4]
      omega

lemma disStepLoop_count_qaStep (n : ℕ) :
    (disStepLoop n).count OptimEvent.qaStep = 0 := by
  induction n with
  | zero => rfl
  | succ m ih =>
      rw [disStepLoop, List.count_append, ih]
      have h4 : List.count OptimEvent.qaStep
          [OptimEvent.disStep, OptimEvent.disZeroGrad,
           OptimEvent.disBackward, OptimEvent.disStep] = 0 := by decide
      rw [h4]

/-! ### Gold-position clamping and ignore-index cross entropy
(train.py lines 317-330)

`ignored_index = start_logits.size(1)` (the sequence length `L`);
`start_positions.clamp_(0, ignored_index)` and likewise for the end;
then `nn.CrossEntropyLoss(ignore_index=ignored_index, reduce=False)`
yields, per example, `0` for a target equal to `ignored_index` and
`-(logits[t] - log(sum(exp(logits))))` otherwise. -/

/-- `positions.clamp_(0, ignored_index)` with `ignored_index = L`. -/
def clampPos (L : ℕ) (p : ℤ) : ℤ := min (max p 0) (L : ℤ)

/-- Per-example `nn.CrossEntropyLoss(ignore_index=L, reduce=False)`:
zero on the ignored index, negative log-softmax otherwise. -/
noncomputable def crossEntropyIgnore (L : ℕ) (logits : ℕ → ℝ) (target : ℤ) : ℝ :=
  if target = (L : ℤ) then 0
  else -(logits target.toNat
          - Real.log (∑ c ∈ Finset.range L, Real.exp (logits c)))

/-! ### Claims -/

/-- Claim C1, counterexample: the built mask is not the symmetric band.
At k = 1 the claim demands entry (0,1) to be 0 since |0−1| ≤ 1, but the
transposed row-band construction leaves entries strictly above the
diagonal at 1. -/
theorem C1_counterexample :
    ¬ (∀ i j : ℕ, i < 384 → j < 384 →
        (length_mask 384 1 i j = 0 ↔ ((i : ℤ) - j).natAbs ≤ 1)) := by
  intro h
  have h01 := (h 0 1 (by norm_num) (by norm_num)).mpr (by decide)
  rw [length_mask_apply] at h01
  norm_num at h01

/-- Claim C1, amended: for every L, k and indices i, j < L, the
LengthBandMask entry (i,j) built at trainer construction is 0 iff
0 ≤ i − j ≤ k (a one-sided band on and below the diagonal), else 1. -/
theorem C1_length_mask_band (L k i j : ℕ) (_hi : i < L) (hj : j < L) :
    length_mask L k i j = if j ≤ i ∧ i ≤ j + k then 0 else 1 := by
  rw [length_mask_apply]
  have hiff : (j < L ∧ j ≤ i ∧ i ≤ j + k) ↔ (j ≤ i ∧ i ≤ j + k) := by
    constructor
    · exact fun hc => hc.2
    · exact fun hc => ⟨hj, hc⟩
  exact if_congr hiff rfl rfl

/-- Claim C1, witness: the amended band shape at L = 384, k = 1 on the
concrete entry (1,0), which lies inside the one-sided band. -/
theorem C1_witness : length_mask 384 1 1 0 = 0 := by
  rw [C1_length_mask_band 384 1 1 0 (by norm_num) (by norm_num)]
  norm_num

/-- Claim C3, counterexample: at predicted length 0 and gold length 0
(gold end = gold start − 1, argmax end = argmax start − 1, both within
the claim's position hypotheses) the rule `weight = 2 when
predicted_length ≤ 0` fires, refuting the claimed particular
`predicted_length == gold_length gives weight 1`. -/
theorem C3_counterexample :
    predLengthWeight 0 0 = 2 ∧ predLengthWeight 0 0 ≠ 1 := by
  have h : predLengthWeight 0 0 = 2 := by
    simp [predLengthWeight]
  refine ⟨h, ?_⟩
  rw [h]
  norm_num

/-- Claim C3, amended: the per-example weight equals the spec policy —
base `exp(1 − max(gold,1)/max(pred,1))`, replaced by 1 when
`pred ≤ max(gold,1)`, replaced by 2 when `pred ≤ 0`, the last rule
taking precedence; in particular `pred = gold` gives weight 1 whenever
`gold ≥ 1` (not for degenerate equal lengths ≤ 0), `pred ≤ 0` gives 2
regardless of gold, and `pred = 2·gold` with `gold ≥ 1` gives
`exp(1/2)`. -/
theorem C3_weight_policy :
    (∀ p g : ℤ, predLengthWeight p g = specLengthWeight p g)
    ∧ (∀ g : ℤ, 1 ≤ g → predLengthWeight g g = 1)
    ∧ (∀ p g : ℤ, p ≤ 0 → predLengthWeight p g = 2)
    ∧ (∀ g : ℤ, 1 ≤ g → predLengthWeight (2 * g) g = Real.exp (1 / 2)) := by
  refine ⟨predLengthWeight_eq_specLengthWeight, ?_, ?_, ?_⟩
  · intro g hg
    simp only [predLengthWeight]
    rw [if_pos (by omega : (0 : ℤ) < g), if_neg (lt_irrefl g)]
  · intro p g hp
    simp only [predLengthWeight]
    rw [if_neg (by omega : ¬ (0 : ℤ) < p)]
  · intro g hg
    simp only [predLengthWeight]
    rw [if_pos (by omega : (0 : ℤ) < 2 * g), if_pos (by omega : g < 2 * g)]
    have hmg : max g (1 : ℤ) = g := max_eq_left (by omega)
    have hmp : max (2 * g) (1 : ℤ) = 2 * g := max_eq_left (by omega)
    rw [hmg, hmp]
    have hgne : (g : ℝ) ≠ 0 := Int.cast_ne_zero.mpr (by omega)
    have harg : 1 - ((g : ℤ) : ℝ) / (((2 * g : ℤ)) : ℝ) = 1 / 2 := by
      push_cast
      rw [mul_comm 2 (g : ℝ), ← div_div, div_self hgne]
      norm_num
    rw [harg]

/-- Claim C3, witness: a matched prediction of positive length 3 gets
weight 1. -/
theorem C3_witness : predLengthWeight 3 3 = 1 :=
  C3_weight_policy.2.1 3 (by norm_num)

/-- Claim C4, counterexample: with adversarial mode on and N = 3
configured discriminator steps, a batch performs 6 discriminator
optimizer step calls, not 3 (the loop body calls `dis_optim.step()`
twice). -/
theorem C4_counterexample :
    (batchEvents true 3).count OptimEvent.disStep = 6 ∧
    ¬ (batchEvents true 3).count OptimEvent.disStep = 3 := by
  constructor <;> decide

/-- Claim C4, amended: with adversarial mode enabled and N configured
discriminator steps, each training batch performs exactly one base-model
optimizer update and exactly 2·N discriminator optimizer step calls
(the loop body steps the discriminator optimizer twice per iteration),
the base-model update occurring before all discriminator updates. -/
theorem C4_schedule (N : ℕ) :
    (batchEvents true N).count OptimEvent.qaStep = 1
    ∧ (batchEvents true N).count OptimEvent.disStep = 2 * N
    ∧ batchEvents true N
        = [OptimEvent.qaZeroGrad, OptimEvent.disZeroGrad, OptimEvent.lossBackward]
          ++ OptimEvent.qaStep :: disStepLoop N
    ∧ (disStepLoop N).count OptimEvent.qaStep = 0
    ∧ [OptimEvent.qaZeroGrad, OptimEvent.disZeroGrad,
        OptimEvent.lossBackward].count OptimEvent.disStep = 0 := by
  have hdecomp : batchEvents true N
      = [OptimEvent.qaZeroGrad, OptimEvent.disZeroGrad, OptimEvent.lossBackward]
        ++ OptimEvent.qaStep :: disStepLoop N := rfl
  refine ⟨?_, ?_, hdecomp, disStepLoop_count_qaStep N, by decide⟩
  · rw [hdecomp, List.count_append, List.count_cons_self,
        disStepLoop_count_qaStep]
    decide
  · rw [hdecomp, List.count_append,
        List.count_cons_of_ne (by decide : OptimEvent.disStep ≠ OptimEvent.qaStep),
        disStepLoop_count_disStep]
    have hpre : [OptimEvent.qaZeroGrad, OptimEvent.disZeroGrad,
        OptimEvent.lossBackward].count OptimEvent.disStep = 0 := by decide
    rw [hpre]
    omega

/-- Claim C5, counterexample: on a batch of two examples with exactly
one in-domain, the discriminator KL call broadcasts the single kept row
against the two-row uniform target and returns twice the §4.4 in-domain
batch-mean KL, so the backpropagated scalar is not
span_loss + λ_length·length_loss + λ_adv·adversarial_loss. -/
theorem C5_counterexample :
    trainBatchLoss 1 0 1 2 (fun _ => 0) (fun _ => 0) (fun _ => 0)
        (fun _ _ => 0) (fun _ _ => 0)
        [((0 : ℤ), fun _ => (-1 : ℝ)), ((5 : ℤ), fun _ => (0 : ℝ))] 0 1
      ≠ some (reweightedSpanLoss 2 (fun _ => 0) (fun _ => 0) (fun _ => 0)
          + 0 * batchLengthLoss 1 0 2 (fun _ _ => 0) (fun _ _ => 0)
          + 1 * specAdversarialLoss 1
              [((0 : ℤ), fun _ => (-1 : ℝ)), ((5 : ℤ), fun _ => (0 : ℝ))]) := by
  have hspan : reweightedSpanLoss 2 (fun _ => (0 : ℝ)) (fun _ => 0) (fun _ => 0)
      = 0 := by
    simp [reweightedSpanLoss]
  have hrow : rowKL 1 (fun _ => (-1 : ℝ)) = 1 := by
    norm_num [rowKL, klPointwise, uniformTarget, Finset.sum_range_one]
  have hfilt : List.filter (fun x => decide (x.1 < 3))
      ([((0 : ℤ), fun _ => (-1 : ℝ)), ((5 : ℤ), fun _ => (0 : ℝ))]
        : List (ℤ × (ℕ → ℝ)))
        = [((0 : ℤ), fun _ => (-1 : ℝ))] := by
    norm_num [List.filter]
  have hcdl : compute_discriminator_loss 1
      [((0 : ℤ), fun _ => (-1 : ℝ)), ((5 : ℤ), fun _ => (0 : ℝ))] = some 2 := by
    simp only [compute_discriminator_loss, hfilt]
    norm_num [klDivBatchmeanUniform, hrow]
  have hspec : specAdversarialLoss 1
      [((0 : ℤ), fun _ => (-1 : ℝ)), ((5 : ℤ), fun _ => (0 : ℝ))] = 1 := by
    simp only [specAdversarialLoss, hfilt]
    norm_num [klBatchmean, hrow]
  rw [trainBatchLoss, hcdl, Option.map_some', hspan, hspec]
  norm_num

/-- Claim C5, amended: with reweighting, length loss and the adversarial
term all enabled, for every batch whose in-domain subset is empty or is
the whole batch (so the discriminator KL call neither raises nor
rescales), the scalar handed to `loss.backward()` for the base model
equals span_loss + λ_length·length_loss + λ_adv·adversarial_loss, the
span loss being the sum of the reweighted per-example span
cross-entropies divided by the batch size and the adversarial loss the
§4.4 in-domain batch-mean KL to uniform. -/
theorem C5_composite_loss (L k C B : ℕ)
    (start_loss end_loss weight : ℕ → ℝ) (sLogits eLogits : ℕ → ℕ → ℝ)
    (dbatch : List (ℤ × (ℕ → ℝ))) (length_lambda discriminator_lambda : ℝ)
    (hdom : (dbatch.filter (fun x => x.1 < 3)).length = 0
          ∨ (dbatch.filter (fun x => x.1 < 3)).length = dbatch.length) :
    trainBatchLoss L k C B start_loss end_loss weight sLogits eLogits dbatch
        length_lambda discriminator_lambda
      = some ((∑ e ∈ Finset.range B,
            weight e * ((start_loss e + end_loss e) / 2)) / (B : ℝ)
          + length_lambda * batchLengthLoss L k B sLogits eLogits
          + discriminator_lambda * specAdversarialLoss C dbatch) := by
  rw [trainBatchLoss, compute_discriminator_loss_homogeneous C dbatch hdom,
      Option.map_some', reweightedSpanLoss_eq]

/-- Claim C5, witness: on the empty batch (no in-domain example, zero
losses, zero coefficients) the amended equation instantiates to
`some 0`. -/
theorem C5_witness :
    trainBatchLoss 1 0 1 1 (fun _ => 0) (fun _ => 0) (fun _ => 0)
      (fun _ _ => 0) (fun _ _ => 0) [] 0 0 = some 0 := by
  rw [C5_composite_loss 1 0 1 1 (fun _ => 0) (fun _ => 0) (fun _ => 0)
      (fun _ _ => 0) (fun _ _ => 0) [] 0 0 (Or.inl rfl)]
  norm_num [specAdversarialLoss]

/-- Claim C6: for a batch in which no example's domain id is below the
in-domain threshold 3, the encoder-adversarial loss computation takes
the early-return branch and yields exactly 0 without raising. -/
theorem C6_empty_in_domain (C : ℕ) (batch : List (ℤ × (ℕ → ℝ)))
    (h : ∀ x ∈ batch, ¬ x.1 < 3) :
    compute_discriminator_loss C batch = some 0 := by
  have hfilter : batch.filter (fun x => x.1 < 3) = [] :=
    List.filter_eq_nil_iff.mpr fun x hx => by simpa using h x hx
  simp [compute_discriminator_loss, hfilter]

/-- Claim C6, witness: a concrete batch whose two domain ids (3 and 7)
are both at or above the threshold yields loss 0. -/
theorem C6_witness :
    compute_discriminator_loss 4
      [((3 : ℤ), fun _ => (0 : ℝ)), ((7 : ℤ), fun _ => (1 : ℝ))] = some 0 :=
  C6_empty_in_domain 4 _ (by
    intro x hx
    rcases List.mem_cons.mp hx with rfl | hx'
    · norm_num
    · rcases List.mem_cons.mp hx' with rfl | hx''
      · norm_num
      · exact absurd hx'' (List.not_mem_nil x))

/-- Claim C10: with reweighting enabled, gold positions are clamped into
[0, L] and the per-position cross entropy uses ignore-index L, so a gold
position at or beyond L is clamped to L and its cross-entropy term is
exactly 0. -/
theorem C10_clamp_ignore (L : ℕ) :
    (∀ q : ℤ, 0 ≤ clampPos L q ∧ clampPos L q ≤ (L : ℤ))
    ∧ (∀ (logits : ℕ → ℝ) (p : ℤ), (L : ℤ) ≤ p →
        clampPos L p = (L : ℤ)
        ∧ crossEntropyIgnore L logits (clampPos L p) = 0) := by
  constructor
  · intro q
    constructor
    · rw [clampPos]
      rcases le_total (max q 0) (L : ℤ) with h | h
      · rw [min_eq_left h]
        exact le_max_right q 0
      · rw [min_eq_right h]
        exact Int.ofNat_nonneg L
    · rw [clampPos]
      exact min_le_right _ _
  · intro logits p hp
    have h0 : (0 : ℤ) ≤ p := le_trans (Int.ofNat_nonneg L) hp
    have hcl : clampPos L p = (L : ℤ) := by
      rw [clampPos, max_eq_left h0, min_eq_right hp]
    refine ⟨hcl, ?_⟩
    rw [hcl, crossEntropyIgnore, if_pos rfl]

/-- Claim C10, witness: at L = 3 a gold position 5 is clamped to 3 and
its cross-entropy term is 0. -/
theorem C10_witness :
    clampPos 3 5 = 3
    ∧ crossEntropyIgnore 3 (fun _ => (0 : ℝ)) (clampPos 3 5) = 0 :=
  (C10_clamp_ignore 3).2 (fun _ => (0 : ℝ)) 5 (by norm_num)

/-- Modelled from the spec's words (§4.2): the total probability mass
assigned to (start,end) pairs whose implied answer length
end − start + 1 exceeds k. -/
noncomputable def specExceedMass (L k : ℕ) (p q : ℕ → ℝ) : ℝ :=
  ∑ i ∈ Finset.range L, ∑ j ∈ Finset.range L,
    if (k : ℤ) < (j : ℤ) - (i : ℤ) + 1 then p i * q j else 0

/-- Claim C2, counterexample: with L = 3, k = 1 and uniform softmax
distributions (all logits 0), the masked trace is 4/9 (it counts the
pairs with end < start and those with length > k + 1) while the mass on
pairs of length exceeding k is 3/9. -/
theorem C2_counterexample :
    exampleLengthTrace 3 1 (softmaxRow 3 (fun _ => 0)) (softmaxRow 3 (fun _ => 0))
      ≠ specExceedMass 3 1 (softmaxRow 3 (fun _ => 0)) (softmaxRow 3 (fun _ => 0)) := by
  have hsm : ∀ c, softmaxRow 3 (fun _ => (0 : ℝ)) c = 1 / 3 := by
    intro c
    rw [softmaxRow]
    norm_num [Real.exp_zero]
  rw [exampleLengthTrace_eq, specExceedMass]
  simp only [hsm]
  norm_num [Finset.sum_range_succ]

/-- Claim C2, amended: for every example, with P_start and P_end the
softmaxed logit rows, the trace of the matrix product of the
outer-product joint distribution with the length-band mask equals the
total probability mass assigned to (start,end) pairs lying outside the
mask band: pairs whose end precedes the start or whose implied answer
length end − start + 1 exceeds k + 1. -/
theorem C2_trace_mass (L k : ℕ) (start_logits end_logits : ℕ → ℝ) :
    exampleLengthTrace L k (softmaxRow L start_logits) (softmaxRow L end_logits)
      = ∑ i ∈ Finset.range L, ∑ j ∈ Finset.range L,
          if j < i ∨ i + k + 1 ≤ j then
            softmaxRow L start_logits i * softmaxRow L end_logits j
          else 0 := by
  rw [exampleLengthTrace_eq]
  refine Finset.sum_congr rfl fun a _ => Finset.sum_congr rfl fun c _ => ?_
  by_cases h : a ≤ c ∧ c ≤ a + k
  · rw [if_pos h, if_neg (by omega)]
  · rw [if_neg h, if_pos (by omega)]

/-- Claim C7: if the mask entries are in {0,1} and each example's start
and end distributions are valid probability simplices over the L
positions, the batch-averaged masked-trace penalty lies in [0, 1]. -/
theorem C7_length_loss_bounds (L B : ℕ) (ps qs : ℕ → ℕ → ℝ) (M : ℕ → ℕ → ℝ)
    (hM : ∀ i j, i < L → j < L → M i j = 0 ∨ M i j = 1)
    (hp_nonneg : ∀ b i, b < B → i < L → 0 ≤ ps b i)
    (hq_nonneg : ∀ b i, b < B → i < L → 0 ≤ qs b i)
    (hp_sum : ∀ b, b < B → ∑ i ∈ Finset.range L, ps b i = 1)
    (hq_sum : ∀ b, b < B → ∑ i ∈ Finset.range L, qs b i = 1) :
    0 ≤ batchTraceLossWithMask L B ps qs M
    ∧ batchTraceLossWithMask L B ps qs M ≤ 1 := by
  have htr : ∀ b, b < B →
      0 ≤ exampleTraceWithMask L (ps b) (qs b) M
      ∧ exampleTraceWithMask L (ps b) (qs b) M ≤ 1 := by
    intro b hb
    rw [exampleTraceWithMask_eq]
    constructor
    · refine Finset.sum_nonneg fun a ha => Finset.sum_nonneg fun c hc => ?_
      have hMn : 0 ≤ M c a := by
        rcases hM c a (Finset.mem_range.mp hc) (Finset.mem_range.mp ha) with h | h <;>
          simp [h]
      exact mul_nonneg
        (mul_nonneg (hp_nonneg b a hb (Finset.mem_range.mp ha))
          (hq_nonneg b c hb (Finset.mem_range.mp hc))) hMn
    · have hbound : ∑ a ∈ Finset.range L, ∑ c ∈ Finset.range L,
          ps b a * qs b c * M c a
            ≤ ∑ a ∈ Finset.range L, ∑ c ∈ Finset.range L, ps b a * qs b c := by
        refine Finset.sum_le_sum fun a ha => Finset.sum_le_sum fun c hc => ?_
        have hpq : 0 ≤ ps b a * qs b c :=
          mul_nonneg (hp_nonneg b a hb (Finset.mem_range.mp ha))
            (hq_nonneg b c hb (Finset.mem_range.mp hc))
        rcases hM c a (Finset.mem_range.mp hc) (Finset.mem_range.mp ha) with h | h
        · rw [h, mul_zero]
          exact hpq
        · rw [h, mul_one]
      have hone : ∑ a ∈ Finset.range L, ∑ c ∈ Finset.range L, ps b a * qs b c = 1 := by
        rw [← Finset.sum_mul_sum, hp_sum b hb, hq_sum b hb, one_mul]
      linarith
  rw [batchTraceLossWithMask]
  rcases Nat.eq_zero_or_pos B with hB | hB
  · subst hB
    norm_num
  · have hS0 : 0 ≤ ∑ b ∈ Finset.range B, exampleTraceWithMask L (ps b) (qs b) M :=
      Finset.sum_nonneg fun b hb => (htr b (Finset.mem_range.mp hb)).1
    have hSB : ∑ b ∈ Finset.range B, exampleTraceWithMask L (ps b) (qs b) M ≤ (B : ℝ) := by
      calc ∑ b ∈ Finset.range B, exampleTraceWithMask L (ps b) (qs b) M
          ≤ ∑ _b ∈ Finset.range B, (1 : ℝ) :=
            Finset.sum_le_sum fun b hb => (htr b (Finset.mem_range.mp hb)).2
        _ = (B : ℝ) := by
            rw [Finset.sum_const, Finset.card_range, nsmul_eq_mul, mul_one]
    have hBpos : (0 : ℝ) < (B : ℝ) := by exact_mod_cast hB
    constructor
    · exact div_nonneg hS0 (le_of_lt hBpos)
    · rw [div_le_one hBpos]
      exact hSB

/-- Claim C7, witness: a one-example, one-position batch with the
all-ones mask and point-mass distributions has its penalty inside
[0, 1]. -/
theorem C7_witness :
    0 ≤ batchTraceLossWithMask 1 1 (fun _ _ => 1) (fun _ _ => 1) (fun _ _ => 1)
    ∧ batchTraceLossWithMask 1 1 (fun _ _ => 1) (fun _ _ => 1) (fun _ _ => 1) ≤ 1 :=
  C7_length_loss_bounds 1 1 (fun _ _ => 1) (fun _ _ => 1) (fun _ _ => 1)
    (fun _ _ _ _ => Or.inr rfl)
    (fun _ _ _ _ => by norm_num)
    (fun _ _ _ _ => by norm_num)
    (fun _ _ => by norm_num)
    (fun _ _ => by norm_num)

/-- Claim C8: for a batch with at least one in-domain example, if every
example's discriminator row is a valid log-probability vector (its
exponentials sum to 1 over the C classes), then a zero
encoder-adversarial loss forces the discriminator output to be exactly
uniform — every log-probability equal to log(1/C) — on every in-domain
example. This holds for every branch of the KL call: the matching-shape
batchmean, the broadcast case of a single kept row (loss scaled by the
full batch size), and vacuously the shape-mismatch error case. -/
theorem C8_zero_only_if_uniform (C : ℕ) (batch : List (ℤ × (ℕ → ℝ)))
    (hvalid : ∀ x ∈ batch, ∑ c ∈ Finset.range C, Real.exp (x.2 c) = 1)
    (hin : ∃ x ∈ batch, x.1 < 3)
    (hzero : compute_discriminator_loss C batch = some 0) :
    ∀ x ∈ batch, x.1 < 3 →
      ∀ c ∈ Finset.range C, x.2 c = Real.log (uniformTarget C) := by
  obtain ⟨x0, hx0mem, hx0in⟩ := hin
  have hC : 0 < C := by
    rcases Nat.eq_zero_or_pos C with h | h
    · subst h
      have := hvalid x0 hx0mem
      simp at this
    · exact h
  have hx0f : x0 ∈ batch.filter (fun x => x.1 < 3) :=
    List.mem_filter.mpr ⟨hx0mem, by simpa using hx0in⟩
  have hlen : (batch.filter (fun x => x.1 < 3)).length ≠ 0 := by
    intro h
    rw [List.length_eq_zero] at h
    rw [h] at hx0f
    exact List.not_mem_nil x0 hx0f
  have hnum : (((batch.filter (fun x => x.1 < 3)).map Prod.snd).map (rowKL C)).sum = 0 := by
    simp only [compute_discriminator_loss] at hzero
    rw [if_neg (by rw [List.length_map]; exact hlen)] at hzero
    refine klDivBatchmeanUniform_eq_zero C _ batch.length ?_ ?_ hzero
    · rw [List.length_map]
      exact hlen
    · rw [List.length_map]
      exact List.length_filter_le _ _
  have hnn : ∀ y ∈ ((batch.filter (fun x => x.1 < 3)).map Prod.snd).map (rowKL C),
      0 ≤ y := by
    intro y hy
    obtain ⟨r, hr, rfl⟩ := List.mem_map.mp hy
    obtain ⟨z, hz, rfl⟩ := List.mem_map.mp hr
    exact rowKL_nonneg C hC z.2 (hvalid z (List.mem_filter.mp hz).1)
  have hall := list_sum_zero_of_nonneg hnn hnum
  intro x hxmem hxin c hc
  have hxf : x ∈ batch.filter (fun x => x.1 < 3) :=
    List.mem_filter.mpr ⟨hxmem, by simpa using hxin⟩
  have hxrow : rowKL C x.2 ∈ ((batch.filter (fun x => x.1 < 3)).map Prod.snd).map (rowKL C) :=
    List.mem_map_of_mem _ (List.mem_map_of_mem _ hxf)
  exact rowKL_eq_zero_imp C x.2 (hvalid x hxmem) (hall _ hxrow) c hc

/-- Claim C8, witness: with one class and one in-domain example whose
log-probability row is identically 0 = log(1/1), the loss is 0 and the
theorem instantiates to 0 = log(1/1). -/
theorem C8_witness : (0 : ℝ) = Real.log (uniformTarget 1) :=
  C8_zero_only_if_uniform 1 [((0 : ℤ), fun _ => (0 : ℝ))]
    (by
      intro x hx
      rcases List.mem_cons.mp hx with rfl | h
      · simp [Real.exp_zero]
      · exact absurd h (List.not_mem_nil x))
    ⟨((0 : ℤ), fun _ => (0 : ℝ)), by simp, by norm_num⟩
    (by norm_num [compute_discriminator_loss, klDivBatchmeanUniform,
        klBatchmean, rowKL, klPointwise, uniformTarget])
    ((0 : ℤ), fun _ => (0 : ℝ)) (by simp) (by norm_num) 0 (by simp)

end QADisc
